import Mathlib

/-!
Verification of the Hermes2D assembly engine (`src/hermes2d/src/discrete_problem.cpp`)
against its natural-language specification.

Scalars (`double` in the source) are modelled as `ℚ`; the numeric thresholds
`1e-12` and `1e-6` from the source become the exact rationals `eps12` and `eps6`.
Heap collections are modelled as lists and functions.
-/

namespace Hermes

/-- The `1e-12` negligibility threshold used throughout `discrete_problem.cpp`. -/
def eps12 : ℚ := 1 / 1000000000000

/-- The `1e-6` negligible-value cutoff of `eval_form_adaptive`. -/
def eps6 : ℚ := 1 / 1000000

/-- An assembly list (`AsmList<Scalar>`): `cnt` entries, each with a global DOF
index (`dof`, negative = constrained/fixed sentinel) and a linear-combination
coefficient (`coef`).  The shape-index array `idx` is not represented: form
evaluation is abstracted by a function of the two entry positions. -/
structure AsmList where
  cnt : ℕ
  dof : ℕ → ℤ
  coef : ℕ → ℚ

/-- A volume matrix form descriptor (`MatrixFormVol<Scalar>`): row space `row`
(`mfv->i`), column space `col` (`mfv->j`), symmetry flag `sym`
(0 = none, 1 = symmetric, negative = antisymmetric), scaling factor, and the
outcome of the area/marker predicate (`assemble_this_form` in the source). -/
structure MatrixFormVol where
  row : ℕ
  col : ℕ
  sym : ℤ
  scalingFactor : ℚ
  areaMatches : Bool

/-- The reusable local dense buffer (`matrix_buffer` via `get_matrix_buffer`). -/
def Buffer := ℕ → ℕ → ℚ

/-- The value stored into `local_stiffness_matrix[i][j]`:
`block_scaling_coeff * eval_form(...) * al[n]->coef[j] * al[m]->coef[i]` when
both coefficients exceed `1e-12` in absolute value, else `0`
(`discrete_problem.cpp:763-770`). -/
def valEntry (bsc : ℚ) (alm aln : AsmList) (val : ℕ → ℕ → ℚ) (i j : ℕ) : ℚ :=
  if eps12 < |alm.coef i| ∧ eps12 < |aln.coef j| then
    bsc * val i j * aln.coef j * alm.coef i
  else 0

/-- One iteration `i` of the unsymmetric inner loop
(`discrete_problem.cpp:758-774`): row `i` of the buffer is filled at the
columns `j < al[n]->cnt` whose DOF is unconstrained. -/
def rowUpdateNonsym (bsc : ℚ) (alm aln : AsmList) (val : ℕ → ℕ → ℚ)
    (B : Buffer) (i : ℕ) : Buffer :=
  fun r c =>
    if r = i ∧ c < aln.cnt ∧ 0 ≤ aln.dof c then valEntry bsc alm aln val i c
    else B r c

/-- One iteration `i` of the symmetric inner loop
(`discrete_problem.cpp:776-793`): entries `[i][j]` and `[j][i]` are both set
for `j ≥ i` with unconstrained DOF (columns `j < i` with unconstrained DOF are
skipped by the `continue`). -/
def rowUpdateSym (bsc : ℚ) (alm aln : AsmList) (val : ℕ → ℕ → ℚ)
    (B : Buffer) (i : ℕ) : Buffer :=
  fun r c =>
    if r = i ∧ c < aln.cnt ∧ 0 ≤ aln.dof c ∧ i ≤ c then valEntry bsc alm aln val i c
    else if c = i ∧ r < aln.cnt ∧ 0 ≤ aln.dof r ∧ i ≤ r then valEntry bsc alm aln val i r
    else B r c

/-- Modelled from the spec: `SparseMatrix<Scalar>::add(m, n, mat, rows, cols)`
(the backend sink, outside `src/`) deposits every block entry whose row and
column DOF are both nonnegative; constrained (negative) indices are skipped
("Every assembly list's global index is either `≥0` (contributes) or a fixed
sentinel (skipped)").  Each deposit is recorded as an event `(row, col, value)`. -/
def matAddBlock (rows cols : ℕ) (B : Buffer) (rdof cdof : ℕ → ℤ) :
    List (ℤ × ℤ × ℚ) :=
  (List.range rows).flatMap (fun i =>
    (List.range cols).filterMap (fun j =>
      if 0 ≤ rdof i ∧ 0 ≤ cdof j then some (rdof i, cdof j, B i j) else none))

/-- Modelled from the spec: the combined effect of `chsgn` (when the form is
antisymmetric) followed by `transpose` on the `rows × cols` block of the buffer
(`matrix.h` is outside `src/`; the spec describes "negating before inserting
the transpose block").  Exact for square blocks, which is what the inner-loop
claims exercise. -/
def traBuffer (B : Buffer) (rows cols : ℕ) (neg : Bool) : Buffer :=
  fun r c =>
    if r < cols ∧ c < rows then (if neg then -(B c r) else B c r) else B r c

/-- One iteration of the outer loop `for i` of `assemble_volume_matrix_forms`
(`discrete_problem.cpp:754-810`), faithful to the source where BOTH global
insertions (`mat->add`, lines 796-798 and 801-808) are INSIDE this loop:
the row is computed, then the whole buffer block is inserted, and for `tra`
forms the negated transpose block is also inserted and the buffer is left
transposed for the next iteration. -/
def volStep (tra symB negTra : Bool) (alm aln : AsmList) (bsc : ℚ)
    (val : ℕ → ℕ → ℚ) (acc : Buffer × List (ℤ × ℤ × ℚ)) (i : ℕ) :
    Buffer × List (ℤ × ℤ × ℚ) :=
  if !tra && decide (alm.dof i < 0) then acc
  else
    let B1 := if symB then rowUpdateSym bsc alm aln val acc.1 i
              else rowUpdateNonsym bsc alm aln val acc.1 i
    let ev1 := matAddBlock alm.cnt aln.cnt B1 alm.dof aln.dof
    if tra then
      let B2 := traBuffer B1 alm.cnt aln.cnt negTra
      (B2, acc.2 ++ ev1 ++ matAddBlock aln.cnt alm.cnt B2 aln.dof alm.dof)
    else (B1, acc.2 ++ ev1)

/-- Processing of one volume matrix form by `assemble_volume_matrix_forms`
(`discrete_problem.cpp:720-811`), with the matrix sink present: the skip gates
(empty spaces, negligible scaling factor, area predicate, negligible block
weight), then the row loop `volStep`.  Returns the buffer it leaves behind and
the list of global-matrix insertion events it produced. -/
def runMatrixFormVol (mfv : MatrixFormVol) (al : ℕ → AsmList) (isempty : ℕ → Bool)
    (blockW : Option (ℕ → ℕ → ℚ)) (val : ℕ → ℕ → ℚ) (B0 : Buffer) :
    Buffer × List (ℤ × ℤ × ℚ) :=
  if isempty mfv.row || isempty mfv.col then (B0, [])
  else if |mfv.scalingFactor| < eps12 then (B0, [])
  else if !mfv.areaMatches then (B0, [])
  else
    let bsc : ℚ := match blockW with | some W => W mfv.row mfv.col | none => 1
    if blockW.isSome ∧ |bsc| < eps12 then (B0, [])
    else
      let alm := al mfv.row
      let aln := al mfv.col
      let tra := mfv.row != mfv.col && mfv.sym != 0
      let symB := mfv.row == mfv.col && mfv.sym == 1
      (List.range alm.cnt).foldl
        (volStep tra symB (decide (mfv.sym < 0)) alm aln bsc val) (B0, [])

/-- The loop over `stage.mfvol` of `assemble_volume_matrix_forms` for one
state: the reusable buffer is threaded from one form to the next, and each
form's own insertion events are collected separately. -/
def runMatrixFormsVol (forms : List (MatrixFormVol × (ℕ → ℕ → ℚ)))
    (al : ℕ → AsmList) (isempty : ℕ → Bool) (blockW : Option (ℕ → ℕ → ℚ))
    (B0 : Buffer) : Buffer × List (List (ℤ × ℤ × ℚ)) :=
  forms.foldl
    (fun acc fv =>
      let out := runMatrixFormVol fv.1 al isempty blockW fv.2 acc.1
      (out.1, acc.2 ++ [out.2]))
    (B0, [])

/-- Total contribution deposited at global entry `(r, c)` by a list of
insertion events. -/
def contrib (evs : List (ℤ × ℤ × ℚ)) (r c : ℤ) : ℚ :=
  evs.foldl (fun a e => if e.1 = r ∧ e.2.1 = c then a + e.2.2 else a) 0

/-- The all-zero initial buffer. -/
def zeroBuf : Buffer := fun _ _ => 0

/-- C1 failing input: one non-symmetric volume matrix form (`sym = 0`) between
spaces 0 and 1, both assembly lists of length 2 with unconstrained DOFs
`[0,1]` and `[2,3]` and unit coefficients; the evaluated form value at entry
position `(i,j)` is `10*(i+1) + (j+1)`. -/
def exC1 : Buffer × List (ℤ × ℤ × ℚ) :=
  runMatrixFormVol ⟨0, 1, 0, 1, true⟩
    (fun k => if k = 0 then ⟨2, fun i => (i : ℤ), fun _ => 1⟩
              else ⟨2, fun i => (i : ℤ) + 2, fun _ => 1⟩)
    (fun _ => false) none
    (fun i j => ((10 * (i + 1) + (j + 1) : ℕ) : ℚ)) zeroBuf

/-- C1: the source inserts the whole local buffer once per row `i`
(`mat->add` at `discrete_problem.cpp:796-798` is inside the `for i` loop), so
global entry `(0, 2)` receives the form value `11` twice — total `22` — instead
of the single contribution `11` the claim states. -/
theorem c1_volume_matrix_block_inserted_per_row :
    contrib exC1.2 0 2 = 22 ∧ (22 : ℚ) ≠ 11 := by
  refine ⟨by with_unfolding_all decide, by with_unfolding_all decide⟩

/-- C3 failing input: two volume matrix forms on space 0, whose assembly list
has 3 unconstrained DOFs `[0,1,2]` with unit coefficients.  The first form is
non-symmetric with value `3*i+j` at position `(i,j)` (leaving an asymmetric
buffer behind); the second is marked symmetric (`sym = 1`) with constant value
`100`. -/
def exC3 : Buffer × List (List (ℤ × ℤ × ℚ)) :=
  runMatrixFormsVol
    [(⟨0, 0, 0, 1, true⟩, fun i j => ((3 * i + j : ℕ) : ℚ)),
     (⟨0, 0, 1, 1, true⟩, fun _ _ => (100 : ℚ))]
    (fun _ => ⟨3, fun i => (i : ℤ), fun _ => 1⟩)
    (fun _ => false) none zeroBuf

/-- C3: because the per-row insertion (inside the `for i` loop,
`discrete_problem.cpp:796-798`) also deposits the stale rows left by the
preceding non-symmetric form, the symmetric form's contribution to entry
`(1,2)` is `205` while its contribution to `(2,1)` is `207` — the contributed
block is not symmetric. -/
theorem c3_symmetric_form_contribution_not_symmetric :
    contrib (exC3.2.getD 1 []) 1 2 = 205 ∧
    contrib (exC3.2.getD 1 []) 2 1 = 207 ∧
    (205 : ℚ) ≠ 207 := by
  refine ⟨by with_unfolding_all decide, by with_unfolding_all decide, by with_unfolding_all decide⟩

/-- C4 failing input: one antisymmetric volume matrix form (`sym = -1`)
between distinct spaces 0 and 1, 2×2 with unconstrained DOFs `[0,1]` and
`[2,3]`, unit coefficients, and directly computed block
`[[1,2],[3,4]]` (value `2*i+j+1` at position `(i,j)`), zero initial buffer. -/
def exC4 : Buffer × List (ℤ × ℤ × ℚ) :=
  runMatrixFormVol ⟨0, 1, -1, 1, true⟩
    (fun k => if k = 0 then ⟨2, fun i => (i : ℤ), fun _ => 1⟩
              else ⟨2, fun i => (i : ℤ) + 2, fun _ => 1⟩)
    (fun _ => false) none
    (fun i j => ((2 * i + j + 1 : ℕ) : ℚ)) zeroBuf

/-- C4: with the transpose insertion inside the row loop
(`discrete_problem.cpp:800-809`), the total `(n,m)` block deposited at rows
`{2,3}` × columns `{0,1}` is `[[0,-3],[-2,-4]]`, while the negated transpose
of the directly computed block `[[1,2],[3,4]]` is `[[-1,-3],[-2,-4]]`: entry
`(2,0)` receives `0` instead of `-1`. -/
theorem c4_antisymmetric_transpose_block_mismatch :
    contrib exC4.2 2 0 = 0 ∧
    contrib exC4.2 2 1 = -3 ∧
    contrib exC4.2 3 0 = -2 ∧
    contrib exC4.2 3 1 = -4 ∧
    (0 : ℚ) ≠ -1 := by
  refine ⟨by with_unfolding_all decide, by with_unfolding_all decide, by with_unfolding_all decide, by with_unfolding_all decide, by with_unfolding_all decide⟩

/-! ## Sparse-structure creation (`create_sparse_structure`, lines 173-382) -/

/-- The `continue` condition guarding both registration passes of
`create_sparse_structure` (`discrete_problem.cpp:283-288` and `337-342`):
a block `(m, n)` is skipped when it is off-diagonal or diagonal blocks are not
forced, a block-weight table is supplied, and `|A(m,n)| < 1e-12`. -/
def weightSkip (force : Bool) (blockW : Option (ℕ → ℕ → ℚ)) (m n : ℕ) : Bool :=
  (!(m == n) || !force) &&
    (match blockW with
     | some W => decide (|W m n| < eps12)
     | none => false)

/-- One registration event of `mat->pre_add_ij`: the `(row-space, col-space)`
block it belongs to, and the global `(row, col)` DOF pair. -/
def PreAdd : Type := ℕ × ℕ × ℤ × ℤ

instance : DecidableEq PreAdd := by unfold PreAdd; infer_instance

/-- The "pretend assembling" double loop of the ordinary pass
(`discrete_problem.cpp:348-357`): every pair of unconstrained DOFs of the two
assembly lists is registered, tagged with the `(m, n)` block. -/
def volPairs (m n : ℕ) (am an : AsmList) : List PreAdd :=
  (List.range am.cnt).flatMap fun i =>
    if 0 ≤ am.dof i then
      (List.range an.cnt).filterMap fun j =>
        if 0 ≤ an.dof j then some (m, n, am.dof i, an.dof j) else none
    else []

/-- The DG pre-add double loop (`discrete_problem.cpp:299-308`): for each
unconstrained DOF pair, `pre_add_ij(am->dof[i], an->dof[j])` is issued when
`blocks[m][el]` holds and `pre_add_ij(an->dof[j], am->dof[i])` when
`blocks[el][m]` holds — the latter lands in the `(el, m)` block. -/
def dgPairAdds (blocks : ℕ → ℕ → Bool) (m el : ℕ) (am an : AsmList) : List PreAdd :=
  (List.range am.cnt).flatMap fun i =>
    if 0 ≤ am.dof i then
      (List.range an.cnt).flatMap fun j =>
        if 0 ≤ an.dof j then
          (if blocks m el then [((m, el, am.dof i, an.dof j) : PreAdd)] else []) ++
          (if blocks el m then [((el, m, an.dof j, am.dof i) : PreAdd)] else [])
        else []
    else []

/-- Input of one state of the structure-creation traversal: the number of
equations/spaces, the flags and tables passed to `assemble`, the per-space
assembly lists of the current element tuple, and (for the DG pass) the
neighbor assembly lists per `(space, edge, neighbor index)`. -/
structure SparseInput where
  neq : ℕ
  force : Bool
  blockW : Option (ℕ → ℕ → ℚ)
  blocks : ℕ → ℕ → Bool
  present : ℕ → Bool
  al : ℕ → AsmList
  isDG : Bool
  numEdges : ℕ
  nCount : ℕ → ℕ → ℕ
  nAl : ℕ → ℕ → ℕ → AsmList

/-- The DG inter-element registration pass of `create_sparse_structure`
(`discrete_problem.cpp:277-314`). -/
def dgEvents (inp : SparseInput) : List PreAdd :=
  (List.range inp.neq).flatMap fun m =>
    (List.range inp.neq).flatMap fun el =>
      if weightSkip inp.force inp.blockW m el then []
      else
        (List.range inp.numEdges).flatMap fun ed =>
          (List.range (inp.nCount el ed)).flatMap fun neigh =>
            if (inp.blocks m el || inp.blocks el m) && inp.present m then
              dgPairAdds inp.blocks m el (inp.al m) (inp.nAl el ed neigh)
            else []

/-- The ordinary volume/boundary registration pass of `create_sparse_structure`
(`discrete_problem.cpp:331-360`). -/
def volEvents (inp : SparseInput) : List PreAdd :=
  (List.range inp.neq).flatMap fun m =>
    (List.range inp.neq).flatMap fun n =>
      if weightSkip inp.force inp.blockW m n then []
      else if inp.blocks m n && inp.present m && inp.present n then
        volPairs m n (inp.al m) (inp.al n)
      else []

/-- All `pre_add_ij` events issued by `create_sparse_structure` for one state:
the DG pass (when a DG inner-edge form is present) followed by the ordinary
pass. -/
def createSparseEvents (inp : SparseInput) : List PreAdd :=
  (if inp.isDG then dgEvents inp else []) ++ volEvents inp

/-- C8 counterexample input: two spaces, one DG inner-edge form present, full
coupling (`blocks ≡ true`), `force_diagonal_blocks = false`, block weights
`A(1,0) = 0` and `1` elsewhere; space 0 has DOF `{0}`, space 1 has DOF `{1}`,
and each element has one neighbor whose assembly list has DOF `{5}`. -/
def exC8 : SparseInput where
  neq := 2
  force := false
  blockW := some fun m n => if m = 1 ∧ n = 0 then 0 else 1
  blocks := fun _ _ => true
  present := fun _ => true
  al := fun k => if k = 0 then ⟨1, fun _ => 0, fun _ => 1⟩ else ⟨1, fun _ => 1, fun _ => 1⟩
  isDG := true
  numEdges := 1
  nCount := fun _ _ => 1
  nAl := fun _ _ _ => ⟨1, fun _ => 5, fun _ => 1⟩

/-- C8 counterexample: although `|A(1,0)| < 1e-12` and
`force_diagonal_blocks = false`, the DG pass of `create_sparse_structure`
still registers the pair `(5, 0)` in the `(1,0)` block — it is issued as the
transposed registration `pre_add_ij(an->dof[j], am->dof[i])` of the iteration
`(m = 0, el = 1)`, which is guarded only by the weight `A(0,1)`. -/
theorem c8_dg_pass_registers_skipped_block :
    ((1, 0, 5, 0) : PreAdd) ∈ createSparseEvents exC8 ∧
    (∀ W, exC8.blockW = some W → |W 1 0| < eps12) ∧ exC8.force = false := by
  refine ⟨by with_unfolding_all decide, ?_, rfl⟩
  intro W hW
  cases hW
  with_unfolding_all decide

/-- Helper: every event produced by `volPairs m n` is tagged with block
`(m, n)`. -/
theorem volPairs_tag {m n : ℕ} {am an : AsmList} {ev : PreAdd}
    (hev : ev ∈ volPairs m n am an) : ev.1 = m ∧ ev.2.1 = n := by
  simp only [volPairs, List.mem_flatMap, List.mem_range] at hev
  obtain ⟨i, _, hev⟩ := hev
  split at hev
  · simp only [List.mem_filterMap, List.mem_range] at hev
    obtain ⟨j, _, hj⟩ := hev
    split at hj
    · cases hj
      exact ⟨rfl, rfl⟩
    · cases hj
  · cases hev

/-- C8 (amended): with no DG inner-edge form present, a supplied block-weight
table with `|A(1,0)| < 1e-12`, and `force_diagonal_blocks = false`,
`create_sparse_structure` registers no `(row, col)` pair in the `(1,0)` space
block. -/
theorem c8_block_absent_without_dg (inp : SparseInput) (W : ℕ → ℕ → ℚ)
    (hdg : inp.isDG = false) (hforce : inp.force = false)
    (hbw : inp.blockW = some W) (hsmall : |W 1 0| < eps12) :
    ∀ ev ∈ createSparseEvents inp, ¬(ev.1 = 1 ∧ ev.2.1 = 0) := by
  intro ev hev ⟨h1, h2⟩
  simp only [createSparseEvents, hdg, if_false, Bool.false_eq_true, List.nil_append] at hev
  simp only [volEvents, List.mem_flatMap, List.mem_range] at hev
  obtain ⟨m, _, n, _, hev⟩ := hev
  split at hev
  · cases hev
  · split at hev
    · obtain ⟨hm, hn⟩ := volPairs_tag hev
      rename_i hskip _
      apply hskip
      rw [h1] at hm
      rw [h2] at hn
      subst hm
      subst hn
      simp only [weightSkip, hforce, hbw, Bool.not_false, Bool.or_true, Bool.true_and,
        decide_eq_true_eq]
      exact hsmall
    · cases hev

/-- C8 amended-claim witness: the amended theorem applied to the no-DG variant
of the counterexample input shows the `(1,0)`-block pair `(5, 0)` is absent. -/
theorem c8_block_absent_without_dg_witness :
    ((1, 0, 5, 0) : PreAdd) ∉ createSparseEvents { exC8 with isDG := false } := by
  intro h
  exact c8_block_absent_without_dg { exC8 with isDG := false }
    (fun m n => if m = 1 ∧ n = 0 then 0 else 1) rfl rfl rfl
    (by with_unfolding_all decide) _ h ⟨rfl, rfl⟩

/-! ## Sparse-structure reuse across assemble calls
(`is_up_to_date`, lines 151-170, and `create_sparse_structure`, lines 173-382) -/

/-- The reuse-relevant state of a `DiscreteProblem`: the `have_matrix` flag and
the stored space / weak-form change-sequence numbers (`sp_seq`, `wf_seq`). -/
structure DPState where
  haveMatrix : Bool
  spSeq : ℕ → ℤ
  wfSeq : ℤ

/-- `DiscreteProblem::is_up_to_date` (`discrete_problem.cpp:151-170`): the
sparse structure can be reused iff a matrix was built and no participating
space's change-sequence and no weak-form change-sequence differs from the
stored one. -/
def isUpToDate (neq : ℕ) (st : DPState) (spaceSeq : ℕ → ℤ) (wfSeq : ℤ) : Bool :=
  st.haveMatrix && ((List.range neq).all fun i => spaceSeq i == st.spSeq i)
    && (wfSeq == st.wfSeq)

/-- `DiscreteProblem::create_sparse_structure` (`discrete_problem.cpp:173-382`)
at the state-machine level, with the registered pattern abstracted by `pat`
(it is a deterministic function of spaces and weak form, cf.
`createSparseEvents`):  if `is_up_to_date`, the existing matrix pattern is kept
and only zeroed (`reused = true`); otherwise the pattern is rebuilt from
scratch when a matrix sink is present, `have_matrix` is set, and the current
change-sequences are stored. -/
def createSparseStructure {α : Type} (neq : ℕ) (st : DPState) (matPresent : Bool)
    (spaceSeq : ℕ → ℤ) (wfSeq : ℤ) (pat : α) (mat : Option α) :
    DPState × Option α × Bool :=
  if isUpToDate neq st spaceSeq wfSeq then (st, mat, true)
  else
    ({ haveMatrix := st.haveMatrix || matPresent, spSeq := spaceSeq, wfSeq := wfSeq },
     if matPresent then some pat else mat, false)

/-- Result of one `assemble` call in the reuse model. -/
structure AssembleResult (α β : Type) where
  st : DPState
  mat : Option α
  out : Option β
  reused : Bool

/-- One `assemble` call (`discrete_problem.cpp:447-517`): create or reuse the
sparse structure, then run the deterministic numeric pass `fill` over it (the
matrix is zeroed beforehand on the reuse path, so the output depends only on
the pattern and the inputs). -/
def assembleOnce {α β : Type} (neq : ℕ) (st : DPState) (matPresent : Bool)
    (spaceSeq : ℕ → ℤ) (wfSeq : ℤ) (pat : α) (mat : Option α) (fill : α → β) :
    AssembleResult α β :=
  let r := createSparseStructure neq st matPresent spaceSeq wfSeq pat mat
  ⟨r.1, r.2.1, r.2.1.map fill, r.2.2⟩

/-- C2: calling `assemble` twice with a matrix sink and unchanged space and
weak-form change-sequences: after the first call `is_up_to_date` holds, so the
second call reuses the sparse structure (`reused = true`, the matrix is only
zeroed), and the second call's pattern and numeric output are identical to the
first call's. -/
theorem c2_assemble_twice_reuses_structure {α β : Type} (neq : ℕ) (st0 : DPState)
    (mat0 : Option α) (spaceSeq : ℕ → ℤ) (wfSeq : ℤ) (pat : α) (fill : α → β) :
    (isUpToDate neq
      (assembleOnce neq st0 true spaceSeq wfSeq pat mat0 fill).st spaceSeq wfSeq = true) ∧
    (assembleOnce neq (assembleOnce neq st0 true spaceSeq wfSeq pat mat0 fill).st true
        spaceSeq wfSeq pat
        (assembleOnce neq st0 true spaceSeq wfSeq pat mat0 fill).mat fill).reused = true ∧
    (assembleOnce neq (assembleOnce neq st0 true spaceSeq wfSeq pat mat0 fill).st true
        spaceSeq wfSeq pat
        (assembleOnce neq st0 true spaceSeq wfSeq pat mat0 fill).mat fill).mat =
      (assembleOnce neq st0 true spaceSeq wfSeq pat mat0 fill).mat ∧
    (assembleOnce neq (assembleOnce neq st0 true spaceSeq wfSeq pat mat0 fill).st true
        spaceSeq wfSeq pat
        (assembleOnce neq st0 true spaceSeq wfSeq pat mat0 fill).mat fill).out =
      (assembleOnce neq st0 true spaceSeq wfSeq pat mat0 fill).out := by
  have hup : isUpToDate neq
      (assembleOnce neq st0 true spaceSeq wfSeq pat mat0 fill).st spaceSeq wfSeq = true := by
    unfold assembleOnce createSparseStructure
    by_cases h : isUpToDate neq st0 spaceSeq wfSeq = true
    · simp [h]
    · simp only [h]
      simp [isUpToDate]
  have hup2 : isUpToDate neq
      (createSparseStructure neq st0 true spaceSeq wfSeq pat mat0).1 spaceSeq wfSeq = true := hup
  refine ⟨hup, ?_, ?_, ?_⟩ <;>
    · conv_lhs => rw [assembleOnce, createSparseStructure]
      simp [hup2, assembleOnce]

/-! ## Adaptive quadrature (`eval_form_adaptive`, lines 2540-2620)

The subelement evaluations are abstracted by `sub : List ℕ → ℚ`, where
`sub p` is the value `eval_form_subelement` returns on the subelement reached
by the transformation path `p`, integrated at order
`order_init + p.length * adapt_order_increase` (each recursion level calls the
subelements at the current order plus `adapt_order_increase`, exactly as the
source passes `order_init + order_increase` down). -/

/-- The sum of the four subelement values below `path`
(`result_current_subelements`, `discrete_problem.cpp:2567-2584`). -/
def fourSum (sub : List ℕ → ℚ) (path : List ℕ) : ℚ :=
  sub (path ++ [0]) + sub (path ++ [1]) + sub (path ++ [2]) + sub (path ++ [3])

/-- `eval_form_adaptive` (`discrete_problem.cpp:2540-2620`), translated with a
fuel parameter to make the unbounded recursion definable:  sum the four
subelement values; accept the sum when `|sum| < 1e-6`; otherwise accept it
when `|sum - coarse| / |sum|` is below the form's tolerance; otherwise recurse
into each of the four subelements, each with its own value as the new coarse
baseline, and return the sum of the recursive results. -/
def evalFormAdaptive (sub : List ℕ → ℚ) (tol : ℚ) :
    ℕ → List ℕ → ℚ → Option ℚ
  | 0, _, _ => none
  | fuel + 1, path, coarse =>
    let s := fourSum sub path
    if |s| < eps6 then some s
    else if |s - coarse| / |s| < tol then some s
    else
      (evalFormAdaptive sub tol fuel (path ++ [0]) (sub (path ++ [0]))).bind fun r0 =>
      (evalFormAdaptive sub tol fuel (path ++ [1]) (sub (path ++ [1]))).bind fun r1 =>
      (evalFormAdaptive sub tol fuel (path ++ [2]) (sub (path ++ [2]))).bind fun r2 =>
      (evalFormAdaptive sub tol fuel (path ++ [3]) (sub (path ++ [3]))).bind fun r3 =>
      some (r0 + r1 + r2 + r3)

/-- The adaptive-evaluation contract as the claim states it: accept the
four-subelement sum on the negligible-value cutoff or when the relative error
against the coarse baseline is below the tolerance, else recurse per
subelement with that subelement's own value as the new coarse baseline. -/
inductive AdaptSpec (sub : List ℕ → ℚ) (tol : ℚ) : List ℕ → ℚ → ℚ → Prop where
  | negligible (path : List ℕ) (coarse : ℚ) :
      |fourSum sub path| < eps6 → AdaptSpec sub tol path coarse (fourSum sub path)
  | withinTol (path : List ℕ) (coarse : ℚ) :
      ¬ |fourSum sub path| < eps6 →
      |fourSum sub path - coarse| / |fourSum sub path| < tol →
      AdaptSpec sub tol path coarse (fourSum sub path)
  | subdivide (path : List ℕ) (coarse r0 r1 r2 r3 : ℚ) :
      ¬ |fourSum sub path| < eps6 →
      ¬ |fourSum sub path - coarse| / |fourSum sub path| < tol →
      AdaptSpec sub tol (path ++ [0]) (sub (path ++ [0])) r0 →
      AdaptSpec sub tol (path ++ [1]) (sub (path ++ [1])) r1 →
      AdaptSpec sub tol (path ++ [2]) (sub (path ++ [2])) r2 →
      AdaptSpec sub tol (path ++ [3]) (sub (path ++ [3])) r3 →
      AdaptSpec sub tol path coarse (r0 + r1 + r2 + r3)

/-- C6: every result the translated `eval_form_adaptive` produces satisfies
the claim's recursive acceptance contract (`AdaptSpec`), and the recursion has
no depth bound: with a relative tolerance of `0` and the constant form value
`1`, no amount of fuel suffices (the source would recurse forever). -/
theorem c6_eval_form_adaptive_follows_spec :
    (∀ (sub : List ℕ → ℚ) (tol : ℚ) (fuel : ℕ) (path : List ℕ) (coarse r : ℚ),
        evalFormAdaptive sub tol fuel path coarse = some r →
        AdaptSpec sub tol path coarse r) ∧
    (∀ (n : ℕ) (path : List ℕ) (coarse : ℚ),
        evalFormAdaptive (fun _ => 1) 0 n path coarse = none) := by
  constructor
  · intro sub tol fuel
    induction fuel with
    | zero =>
      intro path coarse r h
      cases h
    | succ k ih =>
      intro path coarse r h
      rw [evalFormAdaptive] at h
      split_ifs at h with h1 h2
      · cases h
        exact AdaptSpec.negligible path coarse h1
      · cases h
        exact AdaptSpec.withinTol path coarse h1 h2
      · simp only [Option.bind_eq_some] at h
        obtain ⟨r0, h0, r1, h1', r2, h2', r3, h3, hr⟩ := h
        cases hr
        exact AdaptSpec.subdivide path coarse r0 r1 r2 r3 h1 h2
          (ih _ _ _ h0) (ih _ _ _ h1') (ih _ _ _ h2') (ih _ _ _ h3)
  · intro n
    induction n with
    | zero => intro path coarse; rfl
    | succ k ih =>
      intro path coarse
      rw [evalFormAdaptive]
      have hs : fourSum (fun _ => 1) path = 4 := by
        norm_num [fourSum]
      have habs : |(4 : ℚ)| = 4 := abs_of_pos (by norm_num)
      rw [hs]
      have h1 : ¬ |(4 : ℚ)| < eps6 := by
        rw [habs, eps6]
        norm_num
      have h2 : ¬ |(4 : ℚ) - coarse| / |(4 : ℚ)| < 0 :=
        not_lt.2 (div_nonneg (abs_nonneg _) (abs_nonneg _))
      rw [if_neg h1, if_neg h2]
      rw [ih]
      rfl

/-- C6 witness: the soundness part applied at a concrete input — the constant
zero form is accepted immediately by the negligible-value cutoff. -/
theorem c6_eval_form_adaptive_witness : AdaptSpec (fun _ => 0) 1 [] 5 0 := by
  have h := c6_eval_form_adaptive_follows_spec.1 (fun _ => 0) 1 1 [] 5 0
  have heval : evalFormAdaptive (fun _ => 0) 1 1 [] 5 = some 0 := by
    with_unfolding_all decide
  exact h heval

/-! ## The 0.5 factor on surface and DG form evaluation

Each surface evaluator builds `jwt[i] = pt[i][2] * tan[i][2]` and calls the
form's `value` callback on it; the callback and the quadrature data are
abstracted (`F`, resp. `G` for the multi-component variants, of the
jacobian-weighted weights), and each definition places the `scaling_factor`
and `0.5` multiplications exactly where the source does. -/

/-- A surface quadrature point: `pt[i][2]` (the weight) and `tan[i][2]` (the
tangent norm). -/
structure SurfQuadPoint where
  weight : ℚ
  tanNorm : ℚ

/-- The jacobian-times-weight table `cache_jwt[eo]` of the surface evaluators
(`cache_jwt[eo][i] = pt[i][2] * tan[i][2]`). -/
def surfJwt (pts : List SurfQuadPoint) : List ℚ :=
  pts.map fun p => p.weight * p.tanNorm

/-- `eval_form_subelement` for a boundary matrix form
(`discrete_problem.cpp:3205-3264`): `res = value(...) * scaling_factor`, then
`return 0.5 * res`. -/
def evalSubelemMatrixSurf (F : List ℚ → ℚ) (s : ℚ) (pts : List SurfQuadPoint) : ℚ :=
  (1 / 2) * (F (surfJwt pts) * s)

/-- `eval_form` for a multi-component boundary matrix form
(`discrete_problem.cpp:3024-3085`): `result[i] *= scaling_factor * 0.5`. -/
def evalMCMatrixSurf (G : List ℚ → List ℚ) (s : ℚ) (pts : List SurfQuadPoint) : List ℚ :=
  (G (surfJwt pts)).map fun r => r * (s * (1 / 2))

/-- `eval_form_subelement` for a boundary vector form
(`discrete_problem.cpp:3559-3616`). -/
def evalSubelemVectorSurf (F : List ℚ → ℚ) (s : ℚ) (pts : List SurfQuadPoint) : ℚ :=
  (1 / 2) * (F (surfJwt pts) * s)

/-- `eval_form` for a multi-component boundary vector form
(`discrete_problem.cpp:3382-3441`). -/
def evalMCVectorSurf (G : List ℚ → List ℚ) (s : ℚ) (pts : List SurfQuadPoint) : List ℚ :=
  (G (surfJwt pts)).map fun r => r * (s * (1 / 2))

/-- `eval_dg_form` for a DG matrix form (`discrete_problem.cpp:3830-3917`):
`res *= scaling_factor; return 0.5 * res`. -/
def evalDgMatrix (F : List ℚ → ℚ) (s : ℚ) (pts : List SurfQuadPoint) : ℚ :=
  (1 / 2) * (F (surfJwt pts) * s)

/-- `eval_dg_form` for a multi-component DG matrix form
(`discrete_problem.cpp:3919-4002`). -/
def evalDgMCMatrix (G : List ℚ → List ℚ) (s : ℚ) (pts : List SurfQuadPoint) : List ℚ :=
  (G (surfJwt pts)).map fun r => r * (s * (1 / 2))

/-- `eval_dg_form` for a DG vector form (`discrete_problem.cpp:4136-4209`). -/
def evalDgVector (F : List ℚ → ℚ) (s : ℚ) (pts : List SurfQuadPoint) : ℚ :=
  (1 / 2) * (F (surfJwt pts) * s)

/-- `eval_dg_form` for a multi-component DG vector form
(`discrete_problem.cpp:4210-4279`). -/
def evalDgMCVector (G : List ℚ → List ℚ) (s : ℚ) (pts : List SurfQuadPoint) : List ℚ :=
  (G (surfJwt pts)).map fun r => r * (s * (1 / 2))

/-- C9: all eight surface/DG evaluation paths — boundary matrix and vector
forms, their multi-component variants, and the four DG inner-edge variants —
multiply the numerically integrated result by exactly `1/2` on top of the
form's scaling factor, for every quadrature rule and every scaling factor. -/
theorem c9_all_surface_paths_scale_by_half (F : List ℚ → ℚ) (G : List ℚ → List ℚ)
    (s : ℚ) (pts : List SurfQuadPoint) :
    evalSubelemMatrixSurf F s pts = (1 / 2) * s * F (surfJwt pts) ∧
    evalSubelemVectorSurf F s pts = (1 / 2) * s * F (surfJwt pts) ∧
    evalDgMatrix F s pts = (1 / 2) * s * F (surfJwt pts) ∧
    evalDgVector F s pts = (1 / 2) * s * F (surfJwt pts) ∧
    evalMCMatrixSurf G s pts = (G (surfJwt pts)).map (fun r => (1 / 2) * s * r) ∧
    evalMCVectorSurf G s pts = (G (surfJwt pts)).map (fun r => (1 / 2) * s * r) ∧
    evalDgMCMatrix G s pts = (G (surfJwt pts)).map (fun r => (1 / 2) * s * r) ∧
    evalDgMCVector G s pts = (G (surfJwt pts)).map (fun r => (1 / 2) * s * r) := by
  refine ⟨by rw [evalSubelemMatrixSurf]; ring, by rw [evalSubelemVectorSurf]; ring,
    by rw [evalDgMatrix]; ring, by rw [evalDgVector]; ring, ?_, ?_, ?_, ?_⟩ <;>
  · first
      | rw [evalMCMatrixSurf] | rw [evalMCVectorSurf]
      | rw [evalDgMCMatrix] | rw [evalDgMCVector]
    refine List.map_congr_left fun r _ => by ring

/-! ## Transient buffer release in `assemble_one_state` (lines 644-709) -/

/-- Allocation and release events for the per-state `AsmList` buffers
(`new AsmList` at lines 654-656, `delete al[i]` at lines 704-706). -/
inductive StateEvent where
  | allocAsm (k : ℕ)
  | freeAsm (k : ℕ)
deriving DecidableEq

/-- The allocation/release trace of `assemble_one_state`
(`discrete_problem.cpp:644-709`): one `AsmList` is allocated per space; if
`init_state` finds no usable element (every `e[i]` is `NULL`, modelled by the
`usable` flags) the function returns at line 670-671 WITHOUT the deletes;
otherwise the deletes at lines 704-706 run. -/
def assembleOneStateTrace (neq : ℕ) (usable : List Bool) : List StateEvent :=
  ((List.range neq).map StateEvent.allocAsm) ++
    (if usable.any id then (List.range neq).map StateEvent.freeAsm else [])

/-- Whether an event is an `AsmList` allocation. -/
def StateEvent.isAlloc : StateEvent → Bool
  | StateEvent.allocAsm _ => true
  | StateEvent.freeAsm _ => false

/-- Whether an event is an `AsmList` release. -/
def StateEvent.isFree : StateEvent → Bool
  | StateEvent.allocAsm _ => false
  | StateEvent.freeAsm _ => true

/-- Number of `AsmList` allocations in a trace. -/
def allocCount (tr : List StateEvent) : ℕ :=
  tr.countP StateEvent.isAlloc

/-- Number of `AsmList` releases in a trace. -/
def freeCount (tr : List StateEvent) : ℕ :=
  tr.countP StateEvent.isFree

/-- C10: on the early-return path taken when no element of the state tuple is
usable, `assemble_one_state` allocates one assembly list per space and
releases none of them — and in general the early return frees nothing while
allocating `neq` lists. -/
theorem c10_early_return_leaks_asmlists :
    (allocCount (assembleOneStateTrace 2 [false, false]) = 2 ∧
      freeCount (assembleOneStateTrace 2 [false, false]) = 0) ∧
    ∀ neq : ℕ, ∀ usable : List Bool, usable.any id = false →
      allocCount (assembleOneStateTrace neq usable) = neq ∧
      freeCount (assembleOneStateTrace neq usable) = 0 := by
  constructor
  · exact ⟨by decide, by decide⟩
  · intro neq usable h
    constructor
    · simp only [assembleOneStateTrace, allocCount, h, Bool.false_eq_true, if_false,
        List.append_nil, List.countP_map]
      rw [show StateEvent.isAlloc ∘ StateEvent.allocAsm = fun _ => true from rfl]
      rw [List.countP_true, List.length_range]
    · simp only [assembleOneStateTrace, freeCount, h, Bool.false_eq_true, if_false,
        List.append_nil, List.countP_map]
      rw [show StateEvent.isFree ∘ StateEvent.allocAsm = fun _ => false from rfl]
      rw [List.countP_false]
      rfl

/-! ## The multimesh tree (`NeighborNode`, lines 4281-4321, and the tree
routines of `DiscreteProblem`, lines 1266-1561)

A `NeighborNode` holds one sub-element transformation label and up to two
sons; the source guarantees a right son only ever exists together with the
left one (`insert_into_multimesh_tree` creates the left son first, and
`update_ns_subtree` raises a fatal error on a right-only node), so the tree is
represented with three constructors. -/

inductive NTree where
  | lf (t : ℕ)
  | n1 (t : ℕ) (l : NTree)
  | n2 (t : ℕ) (l r : NTree)
deriving DecidableEq

/-- The node's transformation label (`NeighborNode::get_transformation`). -/
def NTree.lab : NTree → ℕ
  | NTree.lf v => v
  | NTree.n1 v _ => v
  | NTree.n2 v _ _ => v

/-- Whether both sons are `NULL`. -/
def NTree.isLeaf : NTree → Bool
  | NTree.lf _ => true
  | _ => false

/-- `DiscreteProblem::insert_into_multimesh_tree`
(`discrete_problem.cpp:1282-1313`): descend along the transformation path,
creating a left son when the node has none, following a son whose label
matches, creating a right son when only the left exists and does not match —
and raising the fatal error ("More than two possible sons") when both sons
exist and neither carries the incoming label (`none`). -/
def insertPath : NTree → List ℕ → Option NTree
  | t, [] => some t
  | NTree.lf v, h :: rest => (insertPath (NTree.lf h) rest).map (NTree.n1 v)
  | NTree.n1 v l, h :: rest =>
      if l.lab = h then (insertPath l rest).map (NTree.n1 v)
      else (insertPath (NTree.lf h) rest).map (NTree.n2 v l)
  | NTree.n2 v l r, h :: rest =>
      if l.lab = h then (insertPath l rest).map (fun x => NTree.n2 v x r)
      else if r.lab = h then (insertPath r rest).map (fun x => NTree.n2 v l x)
      else none

/-- `build_multimesh_tree` (`discrete_problem.cpp:1266-1279`): insert every
central transformation path into a fresh root (`new NeighborNode(NULL, 0)`),
propagating the fatal error. -/
def buildTree (ps : List (List ℕ)) : Option NTree :=
  ps.foldl (fun acc p => acc.bind fun t => insertPath t p) (some (NTree.lf 0))

/-- `DiscreteProblem::find_node` (`discrete_problem.cpp:1385-1407`): walk the
tree along the path, following the son whose label matches; the source raises
a fatal error when no son matches (`none`). -/
def findNode : NTree → List ℕ → Option NTree
  | t, [] => some t
  | NTree.lf _, _ :: _ => none
  | NTree.n1 _ l, h :: rest => if l.lab = h then findNode l rest else none
  | NTree.n2 _ l r, h :: rest =>
      if l.lab = h then findNode l rest
      else if r.lab = h then findNode r rest
      else none

/-- The depth-first leaf paths of a subtree, each starting with the subtree
root's own label (the order `traverse_multimesh_subtree` emits: left son
before right son, `discrete_problem.cpp:1476-1561`). -/
def leafPathsFrom : NTree → List (List ℕ)
  | NTree.lf v => [[v]]
  | NTree.n1 v l => (leafPathsFrom l).map (v :: ·)
  | NTree.n2 v l r => ((leafPathsFrom l) ++ (leafPathsFrom r)).map (v :: ·)

/-- The depth-first leaf paths strictly below a node (excluding the node's own
label): what `update_ns_subtree` appends to the running path of neighbor `i`. -/
def sonsLeafPaths : NTree → List (List ℕ)
  | NTree.lf _ => []
  | NTree.n1 _ l => leafPathsFrom l
  | NTree.n2 _ l r => leafPathsFrom l ++ leafPathsFrom r

/-- The depth-first enumeration of the whole tree's leaves, as root-to-leaf
label paths (the root's own label `0` excluded); a sonless root is itself the
only leaf, with the empty path. -/
def dfsLeaves (t : NTree) : List (List ℕ) :=
  match t with
  | NTree.lf _ => [[]]
  | _ => sonsLeafPaths t

/-- Well-formedness invariant maintained by `insert_into_multimesh_tree`: the
two sons of a binary node carry distinct labels. -/
def wfTree : NTree → Bool
  | NTree.lf _ => true
  | NTree.n1 _ l => wfTree l
  | NTree.n2 _ l r => (!(l.lab == r.lab)) && wfTree l && wfTree r

/-- Whether the node reached by `p` is a leaf, so that `update_ns_subtree`
keeps the neighbor unchanged (`discrete_problem.cpp:1416-1420`). -/
def pathKept (t : NTree) (p : List ℕ) : Bool :=
  match findNode t p with
  | some nd => nd.isLeaf
  | none => false

/-- The neighbor entries `update_ns_subtree` produces for one original
neighbor with central path `p` (`discrete_problem.cpp:1410-1473`): the
neighbor itself when its node is a leaf, else one entry per leaf below the
node, in depth-first order, each with central path `p` extended by the
descending path. -/
def expandAt (t : NTree) (p : List ℕ) : List (List ℕ) :=
  match findNode t p with
  | some nd => if nd.isLeaf then [p] else (sonsLeafPaths nd).map (p ++ ·)
  | none => []

/-- `DiscreteProblem::update_neighbor_search`
(`discrete_problem.cpp:1368-1383`) acting on the central transformation paths
of one `NeighborSearch`: kept neighbors (leaf node) stay in place at the front
of the array, while each expanded neighbor is deleted (`delete_neighbor`,
which shifts the remaining originals down) and its replacement entries are
appended at the end, so the final layout is the kept originals in order
followed by the expansions in processing order.  `none` models the fatal
error of `find_node`. -/
def updateNS (t : NTree) (ps : List (List ℕ)) : Option (List (List ℕ)) :=
  if ps.all fun p => (findNode t p).isSome then
    some (ps.filter (pathKept t) ++ (ps.filter fun p => !pathKept t p).flatMap (expandAt t))
  else none

/-- The label a path `p` places immediately below the node position `q`
(`some h` iff `p` extends `q` by `h`). -/
def nextLabel : List ℕ → List ℕ → Option ℕ
  | [], [] => none
  | [], h :: _ => some h
  | _ :: _, [] => none
  | a :: q, b :: p => if b = a then nextLabel q p else none

/-- All labels that occur at node position `q` across the path set. -/
def nextLabels (ps : List (List ℕ)) (q : List ℕ) : List ℕ :=
  ps.filterMap (nextLabel q)

/-- The node positions spanned by a path set (every prefix of every path). -/
def positionsOf (ps : List (List ℕ)) : List (List ℕ) :=
  ps.flatMap fun p => p.inits

/-- The claim's hypothesis "at most two distinct labels per node position",
bounded to the (finitely many) positions the path set spans so that it is
decidable; positions outside carry no labels at all. -/
def twoLabelsPerNode (ps : List (List ℕ)) : Prop :=
  ∀ q ∈ positionsOf ps, (nextLabels ps q).dedup.length ≤ 2

instance (ps : List (List ℕ)) : Decidable (twoLabelsPerNode ps) := by
  unfold twoLabelsPerNode
  infer_instance

/-- C5 counterexample: the multimesh tree built from the central paths
`[0], [1]` (first mesh) and `[0,0], [0,1]` (second mesh).  Updating the first
mesh's NeighborSearch keeps its leaf entry `[1]` in place and appends the two
expansions of `[0]` behind it, so the updated central paths are
`[[1],[0,0],[0,1]]` — a permutation of, but not equal to, the depth-first
leaf enumeration `[[0,0],[0,1],[1]]`. -/
theorem c5_updated_paths_not_in_dfs_order :
    buildTree [[0], [1], [0, 0], [0, 1]] =
      some (NTree.n2 0 (NTree.n2 0 (NTree.lf 0) (NTree.lf 1)) (NTree.lf 1)) ∧
    updateNS (NTree.n2 0 (NTree.n2 0 (NTree.lf 0) (NTree.lf 1)) (NTree.lf 1))
        [[0], [1]] = some [[1], [0, 0], [0, 1]] ∧
    dfsLeaves (NTree.n2 0 (NTree.n2 0 (NTree.lf 0) (NTree.lf 1)) (NTree.lf 1)) =
      [[0, 0], [0, 1], [1]] ∧
    ([[1], [0, 0], [0, 1]] : List (List ℕ)) ≠ [[0, 0], [0, 1], [1]] := by
  refine ⟨by decide, by decide, by decide, by decide⟩

/-- The first labels of the nonempty paths of a set. -/
def headsOf (ps : List (List ℕ)) : List ℕ := ps.filterMap List.head?

/-- The path suffixes routed below the son with label `a`. -/
def routes (ps : List (List ℕ)) (a : ℕ) : List (List ℕ) :=
  ps.filterMap fun p =>
    match p with
    | [] => none
    | b :: rest => if b = a then some rest else none

/-- Structural invariant tying a tree to the path set that built it: every
son's label occurs as the next label of some routed path, the two sons of a
binary node are distinct, and the sons recursively satisfy the invariant for
the paths routed to them. -/
def Inv2 : NTree → List (List ℕ) → Prop
  | NTree.lf _, _ => True
  | NTree.n1 _ l, ps => l.lab ∈ headsOf ps ∧ Inv2 l (routes ps l.lab)
  | NTree.n2 _ l r, ps => l.lab ∈ headsOf ps ∧ r.lab ∈ headsOf ps ∧ l.lab ≠ r.lab ∧
      Inv2 l (routes ps l.lab) ∧ Inv2 r (routes ps r.lab)

/-- `twoLabelsPerNode` without the position bound (they agree; positions
outside the spanned set carry no labels). -/
def twoAll (ps : List (List ℕ)) : Prop :=
  ∀ q, (nextLabels ps q).dedup.length ≤ 2

theorem head_mem_headsOf {h : ℕ} {rest : List ℕ} {ps : List (List ℕ)}
    (hp : (h :: rest) ∈ ps) : h ∈ headsOf ps := by
  simp only [headsOf, List.mem_filterMap]
  exact ⟨h :: rest, hp, rfl⟩

theorem rest_mem_routes {h : ℕ} {rest : List ℕ} {ps : List (List ℕ)}
    (hp : (h :: rest) ∈ ps) : rest ∈ routes ps h := by
  simp only [routes, List.mem_filterMap]
  exact ⟨h :: rest, hp, by simp⟩

theorem nextLabel_nil_eq : nextLabel ([] : List ℕ) = List.head? := by
  funext p
  cases p <;> rfl

theorem headsOf_eq_nextLabels (ps : List (List ℕ)) :
    headsOf ps = nextLabels ps [] := by
  rw [nextLabels, nextLabel_nil_eq, headsOf]

theorem nextLabels_routes (ps : List (List ℕ)) (a : ℕ) (q : List ℕ) :
    nextLabels (routes ps a) q = nextLabels ps (a :: q) := by
  induction ps with
  | nil => rfl
  | cons p ps ih =>
    cases p with
    | nil =>
      simp only [nextLabels, routes, List.filterMap_cons] at ih ⊢
      exact ih
    | cons b rest =>
      by_cases hb : b = a
      · subst hb
        simp only [nextLabels, routes, List.filterMap_cons, if_pos rfl, nextLabel] at ih ⊢
        cases hnl : nextLabel q rest <;> simp [hnl, ih]
      · simp only [nextLabels, routes, List.filterMap_cons, if_neg hb, nextLabel] at ih ⊢
        exact ih

theorem twoAll_routes {ps : List (List ℕ)} (h : twoAll ps) (a : ℕ) :
    twoAll (routes ps a) := by
  intro q
  rw [nextLabels_routes]
  exact h (a :: q)

theorem nextLabel_some_isPrefixOf {q p : List ℕ} {h : ℕ}
    (hs : nextLabel q p = some h) : q <+: p := by
  induction q generalizing p with
  | nil => exact List.nil_prefix
  | cons a q ih =>
    cases p with
    | nil => cases hs
    | cons b rest =>
      rw [nextLabel] at hs
      by_cases hba : b = a
      · rw [if_pos hba] at hs
        subst hba
        exact (List.prefix_cons_inj _).mpr (ih hs)
      · rw [if_neg hba] at hs
        cases hs

theorem twoLabelsPerNode_twoAll {ps : List (List ℕ)}
    (h : twoLabelsPerNode ps) : twoAll ps := by
  intro q
  by_cases hq : q ∈ positionsOf ps
  · exact h q hq
  · have hnil : nextLabels ps q = [] := by
      rw [nextLabels, List.filterMap_eq_nil_iff]
      intro p hp
      cases hs : nextLabel q p with
      | none => rfl
      | some v =>
        exact absurd (List.mem_flatMap.2 ⟨p, hp, (List.mem_inits q p).2
          (nextLabel_some_isPrefixOf hs)⟩) hq
    rw [hnil]
    simp

theorem three_mem_dedup {a b c : ℕ} {L : List ℕ} (ha : a ∈ L) (hb : b ∈ L)
    (hc : c ∈ L) (hab : a ≠ b) (hac : a ≠ c) (hbc : b ≠ c) :
    3 ≤ L.dedup.length := by
  have hsub : ({a, b, c} : Finset ℕ) ⊆ L.toFinset := by
    intro x hx
    simp only [Finset.mem_insert, Finset.mem_singleton] at hx
    rcases hx with rfl | rfl | rfl <;> simpa [List.mem_toFinset]
  have hcard : ({a, b, c} : Finset ℕ).card = 3 := by
    rw [Finset.card_insert_of_not_mem (by simp [hab, hac]),
      Finset.card_insert_of_not_mem (by simp [hbc]), Finset.card_singleton]
  calc 3 = ({a, b, c} : Finset ℕ).card := hcard.symm
    _ ≤ L.toFinset.card := Finset.card_le_card hsub
    _ = L.dedup.length := List.card_toFinset L

theorem insertPath_lab : ∀ (p : List ℕ) (t t' : NTree),
    insertPath t p = some t' → t'.lab = t.lab := by
  intro p t t' h
  cases p with
  | nil =>
    cases t <;> (rw [insertPath] at h; cases h; rfl)
  | cons a rest =>
    cases t with
    | lf v =>
      rw [insertPath] at h
      simp only [Option.map_eq_some'] at h
      obtain ⟨c, _, hc⟩ := h
      subst hc
      rfl
    | n1 v l =>
      rw [insertPath] at h
      split_ifs at h <;>
        (simp only [Option.map_eq_some'] at h
         obtain ⟨c, _, hc⟩ := h
         subst hc
         rfl)
    | n2 v l r =>
      rw [insertPath] at h
      split_ifs at h <;>
        (simp only [Option.map_eq_some'] at h
         obtain ⟨c, _, hc⟩ := h
         subst hc
         rfl)

theorem insertPath_inv2 : ∀ (p : List ℕ) (t t' : NTree) (ps : List (List ℕ)),
    insertPath t p = some t' → Inv2 t ps → p ∈ ps → Inv2 t' ps := by
  intro p
  induction p with
  | nil =>
    intro t t' ps h hInv _
    cases t <;> (rw [insertPath] at h; cases h; exact hInv)
  | cons a rest ih =>
    intro t t' ps h hInv hmem
    cases t with
    | lf v =>
      rw [insertPath] at h
      simp only [Option.map_eq_some'] at h
      obtain ⟨c, hc, hc'⟩ := h
      subst hc'
      have hlab : c.lab = a := insertPath_lab rest (NTree.lf a) c hc
      refine ⟨?_, ?_⟩
      · rw [hlab]
        exact head_mem_headsOf hmem
      · rw [hlab]
        exact ih (NTree.lf a) c (routes ps a) hc trivial (rest_mem_routes hmem)
    | n1 v l =>
      rw [insertPath] at h
      obtain ⟨h1, h2⟩ := hInv
      by_cases hl : l.lab = a
      · rw [if_pos hl] at h
        simp only [Option.map_eq_some'] at h
        obtain ⟨c, hc, hc'⟩ := h
        subst hc'
        have hlab : c.lab = l.lab := insertPath_lab rest l c hc
        refine ⟨?_, ?_⟩
        · rw [hlab]
          exact h1
        · rw [hlab]
          refine ih l c (routes ps l.lab) hc h2 ?_
          rw [hl]
          exact rest_mem_routes hmem
      · rw [if_neg hl] at h
        simp only [Option.map_eq_some'] at h
        obtain ⟨c, hc, hc'⟩ := h
        subst hc'
        have hlab : c.lab = a := insertPath_lab rest (NTree.lf a) c hc
        refine ⟨h1, ?_, ?_, h2, ?_⟩
        · rw [hlab]
          exact head_mem_headsOf hmem
        · rw [hlab]
          exact hl
        · rw [hlab]
          exact ih (NTree.lf a) c (routes ps a) hc trivial (rest_mem_routes hmem)
    | n2 v l r =>
      rw [insertPath] at h
      obtain ⟨h1, h2, h3, h4, h5⟩ := hInv
      by_cases hl : l.lab = a
      · rw [if_pos hl] at h
        simp only [Option.map_eq_some'] at h
        obtain ⟨c, hc, hc'⟩ := h
        subst hc'
        have hlab : c.lab = l.lab := insertPath_lab rest l c hc
        refine ⟨?_, h2, ?_, ?_, h5⟩
        · rw [hlab]
          exact h1
        · rw [hlab]
          exact h3
        · rw [hlab]
          refine ih l c (routes ps l.lab) hc h4 ?_
          rw [hl]
          exact rest_mem_routes hmem
      · rw [if_neg hl] at h
        by_cases hr : r.lab = a
        · rw [if_pos hr] at h
          simp only [Option.map_eq_some'] at h
          obtain ⟨c, hc, hc'⟩ := h
          subst hc'
          have hlab : c.lab = r.lab := insertPath_lab rest r c hc
          refine ⟨h1, ?_, ?_, h4, ?_⟩
          · rw [hlab]
            exact h2
          · rw [hlab]
            exact h3
          · rw [hlab]
            refine ih r c (routes ps r.lab) hc h5 ?_
            rw [hr]
            exact rest_mem_routes hmem
        · rw [if_neg hr] at h
          cases h

theorem insertPath_isSome : ∀ (p : List ℕ) (t : NTree) (ps : List (List ℕ)),
    Inv2 t ps → p ∈ ps → twoAll ps → (insertPath t p).isSome = true := by
  intro p
  induction p with
  | nil =>
    intro t ps _ _ _
    cases t <;> rw [insertPath] <;> rfl
  | cons a rest ih =>
    intro t ps hInv hmem htwo
    cases t with
    | lf v =>
      rw [insertPath, Option.isSome_map']
      exact ih (NTree.lf a) (routes ps a) trivial (rest_mem_routes hmem)
        (twoAll_routes htwo a)
    | n1 v l =>
      rw [insertPath]
      obtain ⟨h1, h2⟩ := hInv
      by_cases hl : l.lab = a
      · rw [if_pos hl, Option.isSome_map']
        refine ih l (routes ps l.lab) h2 ?_ (twoAll_routes htwo l.lab)
        rw [hl]
        exact rest_mem_routes hmem
      · rw [if_neg hl, Option.isSome_map']
        exact ih (NTree.lf a) (routes ps a) trivial (rest_mem_routes hmem)
          (twoAll_routes htwo a)
    | n2 v l r =>
      rw [insertPath]
      obtain ⟨h1, h2, h3, h4, h5⟩ := hInv
      by_cases hl : l.lab = a
      · rw [if_pos hl, Option.isSome_map']
        refine ih l (routes ps l.lab) h4 ?_ (twoAll_routes htwo l.lab)
        rw [hl]
        exact rest_mem_routes hmem
      · rw [if_neg hl]
        by_cases hr : r.lab = a
        · rw [if_pos hr, Option.isSome_map']
          refine ih r (routes ps r.lab) h5 ?_ (twoAll_routes htwo r.lab)
          rw [hr]
          exact rest_mem_routes hmem
        · exfalso
          have ha : a ∈ headsOf ps := head_mem_headsOf hmem
          rw [headsOf_eq_nextLabels] at h1 h2 ha
          have h3' : 3 ≤ (nextLabels ps []).dedup.length :=
            three_mem_dedup h1 h2 ha h3 hl hr
          have := htwo []
          omega

theorem buildTree_aux : ∀ (l : List (List ℕ)) (t : NTree) (ps : List (List ℕ)),
    Inv2 t ps → (∀ p ∈ l, p ∈ ps) → twoAll ps →
    ∃ t', l.foldl (fun acc p => acc.bind fun u => insertPath u p) (some t) = some t' ∧
      Inv2 t' ps := by
  intro l
  induction l with
  | nil =>
    intro t ps hInv _ _
    exact ⟨t, rfl, hInv⟩
  | cons p l ih =>
    intro t ps hInv hmem htwo
    have hS := insertPath_isSome p t ps hInv (hmem p (List.mem_cons_self p l)) htwo
    obtain ⟨t1, ht1⟩ := Option.isSome_iff_exists.1 hS
    have hInv1 := insertPath_inv2 p t t1 ps ht1 hInv (hmem p (List.mem_cons_self p l))
    rw [List.foldl_cons]
    simp only [Option.bind_eq_bind, Option.some_bind]
    rw [ht1]
    exact ih t1 ps hInv1 (fun q hq => hmem q (List.mem_cons_of_mem p hq)) htwo

/-- C7: inserting a central-side transformation path into the multimesh tree
raises the fatal error exactly when a node already has two sons and neither
carries the incoming label; and for every path set with at most two distinct
labels per node position, building the whole tree succeeds without error. -/
theorem c7_insert_into_multimesh_tree_two_sons :
    (∀ (v : ℕ) (l r : NTree) (h : ℕ) (rest : List ℕ), l.lab ≠ h → r.lab ≠ h →
      insertPath (NTree.n2 v l r) (h :: rest) = none) ∧
    (∀ ps : List (List ℕ), twoLabelsPerNode ps → (buildTree ps).isSome = true) := by
  constructor
  · intro v l r h rest hl hr
    rw [insertPath, if_neg hl, if_neg hr]
  · intro ps hps
    obtain ⟨t', ht', _⟩ := buildTree_aux ps (NTree.lf 0) ps trivial (fun _ hp => hp)
      (twoLabelsPerNode_twoAll hps)
    rw [buildTree, ht']
    rfl

/-- C7 witness: the fatal-error case at a node whose sons carry labels 1 and 2
with incoming label 3, and a successful build for the two-label path set
`[[0], [1], [0, 0]]`. -/
theorem c7_insert_witness :
    insertPath (NTree.n2 0 (NTree.lf 1) (NTree.lf 2)) [3] = none ∧
    (buildTree [[0], [1], [0, 0]]).isSome = true := by
  constructor
  · exact c7_insert_into_multimesh_tree_two_sons.1 0 (NTree.lf 1) (NTree.lf 2) 3 []
      (by decide) (by decide)
  · exact c7_insert_into_multimesh_tree_two_sons.2 [[0], [1], [0, 0]] (by decide)

theorem expandAt_of_kept {t : NTree} {p : List ℕ} (h : pathKept t p = true) :
    expandAt t p = [p] := by
  rw [pathKept] at h
  rw [expandAt]
  cases hf : findNode t p with
  | none =>
    rw [hf] at h
    cases h
  | some nd =>
    rw [hf] at h
    have h' : nd.isLeaf = true := h
    simp [h']

theorem kept_expansion_perm (t : NTree) (ps : List (List ℕ)) :
    (ps.filter (pathKept t) ++
      (ps.filter fun p => !pathKept t p).flatMap (expandAt t)).Perm
      (ps.flatMap (expandAt t)) := by
  induction ps with
  | nil => simp
  | cons p ps ih =>
    by_cases hk : pathKept t p = true
    · simp only [List.filter_cons, hk, Bool.not_true, if_pos, if_neg, List.flatMap_cons,
        Bool.false_eq_true, if_false, expandAt_of_kept hk]
      exact (ih.cons p).trans (List.Perm.refl _)
    · rw [Bool.not_eq_true] at hk
      simp only [List.filter_cons, hk, Bool.not_false, if_pos, Bool.false_eq_true, if_false,
        List.flatMap_cons]
      have h1 : ps.filter (pathKept t) ++
          (expandAt t p ++ (ps.filter fun q => !pathKept t q).flatMap (expandAt t)) =
          (ps.filter (pathKept t) ++ expandAt t p) ++
            (ps.filter fun q => !pathKept t q).flatMap (expandAt t) := by
        rw [List.append_assoc]
      rw [h1]
      refine List.Perm.trans (List.Perm.append_right _ List.perm_append_comm) ?_
      rw [List.append_assoc]
      exact List.Perm.append_left _ ih

theorem leafPathsFrom_eq (t : NTree) :
    leafPathsFrom t = (dfsLeaves t).map (t.lab :: ·) := by
  cases t with
  | lf v => rfl
  | n1 v l => rfl
  | n2 v l r => rfl

theorem expandAt_step {t sub : NTree} {a : ℕ} {rest : List ℕ}
    (h : findNode t (a :: rest) = findNode sub rest)
    (h2 : (findNode sub rest).isSome = true) :
    expandAt t (a :: rest) = (expandAt sub rest).map (a :: ·) := by
  rw [expandAt, expandAt, h]
  cases hf : findNode sub rest with
  | none =>
    rw [hf] at h2
    cases h2
  | some nd =>
    cases hnl : nd.isLeaf
    · simp only [hnl, Bool.false_eq_true, if_false, List.map_map]
      refine List.map_congr_left fun x _ => ?_
      simp
    · simp [hnl]

theorem filter_prefix_expand : ∀ (p : List ℕ) (t : NTree) (nd : NTree),
    wfTree t = true → findNode t p = some nd →
    (dfsLeaves t).filter (fun x => p.isPrefixOf x) = expandAt t p := by
  intro p
  induction p with
  | nil =>
    intro t nd hwf hf
    cases t with
    | lf v => simp [dfsLeaves, expandAt, findNode, NTree.isLeaf]
    | n1 v l => simp [dfsLeaves, expandAt, findNode, NTree.isLeaf]
    | n2 v l r => simp [dfsLeaves, expandAt, findNode, NTree.isLeaf]
  | cons a rest ih =>
    intro t nd hwf hf
    cases t with
    | lf v =>
      rw [findNode] at hf
      cases hf
    | n1 v l =>
      rw [findNode] at hf
      rw [wfTree] at hwf
      by_cases hl : l.lab = a
      · rw [if_pos hl] at hf
        have hleft : dfsLeaves (NTree.n1 v l) = (dfsLeaves l).map (l.lab :: ·) :=
          leafPathsFrom_eq l
        rw [hleft, List.filter_map]
        have hcomp : ((fun x => (a :: rest).isPrefixOf x) ∘ (l.lab :: ·)) =
            fun x => rest.isPrefixOf x := by
          funext x
          simp [Function.comp, List.isPrefixOf_cons₂, hl]
        rw [hcomp, ih l nd hwf hf, hl]
        exact (expandAt_step (by rw [findNode, if_pos hl]) (by rw [hf]; rfl)).symm
      · rw [if_neg hl] at hf
        cases hf
    | n2 v l r =>
      rw [findNode] at hf
      have hwf' := hwf
      rw [wfTree] at hwf'
      simp only [Bool.and_eq_true, Bool.not_eq_eq_eq_not, Bool.not_true] at hwf'
      obtain ⟨⟨hne, hwl⟩, hwr⟩ := hwf'
      have hner : l.lab ≠ r.lab := by
        intro e
        rw [e] at hne
        simp at hne
      have hdfs : dfsLeaves (NTree.n2 v l r) =
          (dfsLeaves l).map (l.lab :: ·) ++ (dfsLeaves r).map (r.lab :: ·) := by
        show sonsLeafPaths (NTree.n2 v l r) = _
        rw [sonsLeafPaths, leafPathsFrom_eq l, leafPathsFrom_eq r]
      by_cases hl : l.lab = a
      · rw [if_pos hl] at hf
        rw [hdfs, List.filter_append, List.filter_map, List.filter_map]
        have hcompl : ((fun x => (a :: rest).isPrefixOf x) ∘ (l.lab :: ·)) =
            fun x => rest.isPrefixOf x := by
          funext x
          simp [Function.comp, List.isPrefixOf_cons₂, hl]
        have hcompr : ((fun x => (a :: rest).isPrefixOf x) ∘ (r.lab :: ·)) =
            fun _ => false := by
          funext x
          have : (a == r.lab) = false := by
            simp only [beq_eq_false_iff_ne, ne_eq]
            intro e
            exact hner (hl.trans e)
          simp [Function.comp, List.isPrefixOf_cons₂, this]
        rw [hcompl, hcompr, List.filter_false, List.map_nil, List.append_nil,
          ih l nd hwl hf, hl]
        exact (expandAt_step (by rw [findNode, if_pos hl]) (by rw [hf]; rfl)).symm
      · rw [if_neg hl] at hf
        by_cases hr : r.lab = a
        · rw [if_pos hr] at hf
          rw [hdfs, List.filter_append, List.filter_map, List.filter_map]
          have hcompl : ((fun x => (a :: rest).isPrefixOf x) ∘ (l.lab :: ·)) =
              fun _ => false := by
            funext x
            have : (a == l.lab) = false := by
              simp only [beq_eq_false_iff_ne, ne_eq]
              intro e
              exact hl e.symm
            simp [Function.comp, List.isPrefixOf_cons₂, this]
          have hcompr : ((fun x => (a :: rest).isPrefixOf x) ∘ (r.lab :: ·)) =
              fun x => rest.isPrefixOf x := by
            funext x
            simp [Function.comp, List.isPrefixOf_cons₂, hr]
          rw [hcompl, hcompr, List.filter_false, List.map_nil, List.nil_append,
            ih r nd hwr hf, hr]
          refine (expandAt_step ?_ (by rw [hf]; rfl)).symm
          rw [findNode, if_neg hl, if_pos hr]
        · rw [if_neg hr] at hf
          cases hf

theorem count_dec (inst : BEq (List ℕ)) (hB : inst = instBEqOfDecidableEq)
    (x : List ℕ) (l : List (List ℕ)) :
    @List.count (List ℕ) inst x l = l.countP fun y => decide (y = x) := by
  subst hB
  rfl

theorem count_flat (L : List (List ℕ)) (x : List ℕ) (ps : List (List ℕ)) :
    ((ps.flatMap fun p => L.filter fun y => p.isPrefixOf y).countP fun y => decide (y = x))
      = (ps.countP fun p => p.isPrefixOf x) * (L.countP fun y => decide (y = x)) := by
  induction ps with
  | nil => simp
  | cons p ps ih =>
    rw [List.flatMap_cons, List.countP_append, ih, List.countP_cons, List.countP_filter]
    by_cases hp : p.isPrefixOf x = true
    · have he : (L.countP fun a => decide (a = x) && p.isPrefixOf a)
          = L.countP fun y => decide (y = x) := by
        refine List.countP_congr fun y _ => ?_
        by_cases hy : y = x
        · subst hy
          simp [hp]
        · simp [hy]
      rw [he, if_pos hp]
      ring
    · have hz : (L.countP fun a => decide (a = x) && p.isPrefixOf a) = 0 := by
        rw [List.countP_eq_zero]
        intro y _
        by_cases hy : y = x
        · subst hy
          simp [hp]
        · simp [hy]
      rw [hz, if_neg hp]
      ring

theorem bind_filter_perm (L ps : List (List ℕ))
    (hc : ∀ x ∈ L, (ps.countP fun p => p.isPrefixOf x) = 1) :
    (ps.flatMap fun p => L.filter fun y => p.isPrefixOf y).Perm L := by
  rw [List.perm_iff_count]
  intro x
  rw [count_dec _ rfl x (ps.flatMap fun p => L.filter fun y => p.isPrefixOf y),
    count_dec _ rfl x L, count_flat L x ps]
  by_cases hx : x ∈ L
  · rw [hc x hx, one_mul]
  · have hz : (L.countP fun y => decide (y = x)) = 0 := by
      rw [List.countP_eq_zero]
      intro y hy
      simp only [decide_eq_true_eq]
      intro e
      exact hx (e ▸ hy)
    rw [hz, Nat.mul_zero]

theorem updateNS_perm_dfs (t : NTree) (ps : List (List ℕ)) (hwf : wfTree t = true)
    (hv : ∀ p ∈ ps, (findNode t p).isSome = true)
    (hc : ∀ x ∈ dfsLeaves t, (ps.countP fun p => p.isPrefixOf x) = 1) :
    ∃ res, updateNS t ps = some res ∧ res.Perm (dfsLeaves t) := by
  have hall : (ps.all fun p => (findNode t p).isSome) = true :=
    List.all_eq_true.2 hv
  refine ⟨_, by rw [updateNS, if_pos hall], ?_⟩
  refine (kept_expansion_perm t ps).trans ?_
  have heq : ps.flatMap (expandAt t) =
      ps.flatMap fun p => (dfsLeaves t).filter fun y => p.isPrefixOf y := by
    refine List.flatMap_congr fun p hp => ?_
    obtain ⟨nd, hnd⟩ := Option.isSome_iff_exists.1 (hv p hp)
    exact (filter_prefix_expand p t nd hwf hnd).symm
  rw [heq]
  exact bind_filter_perm (dfsLeaves t) ps hc

/-- C5 (amended): for a well-formed multimesh tree and NeighborSearches whose
central paths are valid tree paths covering every leaf exactly once,
`update_neighbor_search` succeeds on each, every updated NeighborSearch's
central-path list is a permutation of the depth-first enumeration of the
tree's leaves (kept leaf entries remain in place while expansions are
appended, so the depth-first order itself is not preserved — see the
counterexample), and consequently all NeighborSearches report the same number
of neighbors, as the source asserts fatally. -/
theorem c5_update_neighbor_search_perm_dfs (t : NTree) (ps1 ps2 : List (List ℕ))
    (hwf : wfTree t = true)
    (hv1 : ∀ p ∈ ps1, (findNode t p).isSome = true)
    (hc1 : ∀ x ∈ dfsLeaves t, (ps1.countP fun p => p.isPrefixOf x) = 1)
    (hv2 : ∀ p ∈ ps2, (findNode t p).isSome = true)
    (hc2 : ∀ x ∈ dfsLeaves t, (ps2.countP fun p => p.isPrefixOf x) = 1) :
    ∃ r1 r2, updateNS t ps1 = some r1 ∧ updateNS t ps2 = some r2 ∧
      r1.Perm (dfsLeaves t) ∧ r2.Perm (dfsLeaves t) ∧
      r1.length = r2.length := by
  obtain ⟨r1, h1, hp1⟩ := updateNS_perm_dfs t ps1 hwf hv1 hc1
  obtain ⟨r2, h2, hp2⟩ := updateNS_perm_dfs t ps2 hwf hv2 hc2
  exact ⟨r1, r2, h1, h2, hp1, hp2, hp1.length_eq.trans hp2.length_eq.symm⟩

/-- C5 witness: the amended theorem applied to the counterexample tree with
the two meshes' path sets `[[0],[1]]` and `[[0,0],[0,1],[1]]`. -/
theorem c5_update_neighbor_search_witness :
    ∃ r1 r2,
      updateNS (NTree.n2 0 (NTree.n2 0 (NTree.lf 0) (NTree.lf 1)) (NTree.lf 1))
          [[0], [1]] = some r1 ∧
      updateNS (NTree.n2 0 (NTree.n2 0 (NTree.lf 0) (NTree.lf 1)) (NTree.lf 1))
          [[0, 0], [0, 1], [1]] = some r2 ∧
      r1.Perm (dfsLeaves
        (NTree.n2 0 (NTree.n2 0 (NTree.lf 0) (NTree.lf 1)) (NTree.lf 1))) ∧
      r2.Perm (dfsLeaves
        (NTree.n2 0 (NTree.n2 0 (NTree.lf 0) (NTree.lf 1)) (NTree.lf 1))) ∧
      r1.length = r2.length :=
  c5_update_neighbor_search_perm_dfs
    (NTree.n2 0 (NTree.n2 0 (NTree.lf 0) (NTree.lf 1)) (NTree.lf 1))
    [[0], [1]] [[0, 0], [0, 1], [1]]
    (by decide) (by decide) (by decide) (by decide) (by decide)

end Hermes
